import Mathlib

/-!
Verification of the job-control core of `tsh.c` (Tiny-Shell).

The C program's job table and its helper routines are embedded shallowly:
the table `struct job_t jobs[MAXJOBS]` becomes a `List job_t` of length
`MAXJOBS`, the C functions that mutate it become Lean functions returning
the result code together with the resulting table (the C functions return
an `int` status and mutate in place; a failing call leaves the table
unchanged, which the embedding captures by returning the input list).
Linear scans with first-match semantics are embedded as structural
recursion over the list in slot order.
-/

namespace Tsh

/-- `#define MAXJOBS 16` (tsh.c line 19). -/
def MAXJOBS : Nat := 16

/-- `#define UNDEF 0` (tsh.c line 22). -/
def UNDEF : Int := 0

/-- `#define FG 1` (tsh.c line 23). -/
def FG : Int := 1

/-- `#define BG 2` (tsh.c line 24). -/
def BG : Int := 2

/-- `#define ST 3` (tsh.c line 25). -/
def ST : Int := 3

/-- `struct job_t` (tsh.c lines 42-47): pid, jid, state and command line. -/
structure job_t where
  pid : Int
  jid : Int
  state : Int
  cmdline : String
deriving DecidableEq, Repr

/-- `clearjob` (tsh.c lines 381-386) writes this value into a slot:
pid 0, jid 0, state UNDEF, empty command line. -/
def clearedJob : job_t := ⟨0, 0, UNDEF, ""⟩

/-- `initjobs` (tsh.c lines 389-393): every slot cleared. -/
def initjobs : List job_t := List.replicate MAXJOBS clearedJob

/-- The ascending scan `for (i = 1; i <= MAXJOBS; i++) if (!taken[i]) return i;`
of `freejid` (tsh.c lines 403-407), with `taken[i]` holding exactly when some
slot has `jid == i` (lines 398-402; the `jid != 0` guard is immaterial for
`i >= 1`).  `fuel` bounds the recursion; `freejid` supplies enough of it. -/
def freejid_from (jobs : List job_t) : Nat → Int → Int
  | 0, _ => 0
  | Nat.succ fuel, i =>
      if (MAXJOBS : Int) < i then 0
      else if jobs.all (fun j => j.jid != i) then i
      else freejid_from jobs fuel (i + 1)

/-- `freejid` (tsh.c lines 396-409): smallest i in 1..MAXJOBS whose jid is
unused by any slot, 0 if all are taken. -/
def freejid (jobs : List job_t) : Int := freejid_from jobs (MAXJOBS + 1) 1

/-- The slot-filling loop of `addjob` (tsh.c lines 421-433): fill the first
slot with `pid == 0` with the new job; return code 1 on success, 0 (and the
unchanged list) when every slot is occupied. -/
def add_fill (nj : job_t) : List job_t → Int × List job_t
  | [] => (0, [])
  | j :: rest =>
      if j.pid = 0 then (1, nj :: rest)
      else
        let r := add_fill nj rest
        (r.1, j :: r.2)

/-- `addjob` (tsh.c lines 412-434): reject `pid < 1`, reject when `freejid`
returns 0, otherwise fill the first free slot with the given pid and state
and the smallest free jid. -/
def addjob (jobs : List job_t) (pid state : Int) (cmdline : String) : Int × List job_t :=
  if pid < 1 then (0, jobs)
  else
    let free := freejid jobs
    if free = 0 then (0, jobs)
    else add_fill (job_t.mk pid free state cmdline) jobs

/-- The scan of `deletejob` (tsh.c lines 440-446): clear the first slot whose
pid matches; return code 1 on success, 0 (list unchanged) otherwise. -/
def delete_go (pid : Int) : List job_t → Int × List job_t
  | [] => (0, [])
  | j :: rest =>
      if j.pid = pid then (1, clearedJob :: rest)
      else
        let r := delete_go pid rest
        (r.1, j :: r.2)

/-- `deletejob` (tsh.c lines 437-447): reject `pid < 1`, otherwise clear the
first slot holding `pid`. -/
def deletejob (jobs : List job_t) (pid : Int) : Int × List job_t :=
  if pid < 1 then (0, jobs) else delete_go pid jobs

/-- `fgpid` (tsh.c lines 450-457): pid of the first slot in state FG, else 0. -/
def fgpid (jobs : List job_t) : Int :=
  match jobs.find? (fun j => j.state == FG) with
  | some j => j.pid
  | none => 0

/-- `getjobpid` (tsh.c lines 460-469): `NULL` for `pid < 1`, else the first
slot whose pid matches. -/
def getjobpid (jobs : List job_t) (pid : Int) : Option job_t :=
  if pid < 1 then none else jobs.find? (fun j => j.pid == pid)

/-- `getjobjid` (tsh.c lines 472-481): `NULL` for `jid < 1`, else the first
slot whose jid matches. -/
def getjobjid (jobs : List job_t) (jid : Int) : Option job_t :=
  if jid < 1 then none else jobs.find? (fun j => j.jid == jid)

/-- `pid2jid` (tsh.c lines 484-493; the C function reads the global table,
embedded here as an explicit argument): 0 for `pid < 1` or pid absent, else
the jid of the first slot whose pid matches. -/
def pid2jid (jobs : List job_t) (pid : Int) : Int :=
  if pid < 1 then 0
  else
    match jobs.find? (fun j => j.pid == pid) with
    | some j => j.jid
    | none => 0

/-! ### Parsing and `eval`'s launch decision -/

/-- The leading-space skip of `parseline` (tsh.c lines 274-275 and 290-291). -/
def skipSpaces : List Char → List Char
  | [] => []
  | c :: rest => if c = ' ' then skipSpaces rest else c :: rest

/-- `strchr` as used by `parseline`: split the buffer at the first occurrence
of `c`, dropping the delimiter (the C code overwrites it with `\0`); `none`
when `c` does not occur. -/
def splitAtChar (c : Char) : List Char → Option (List Char × List Char)
  | [] => none
  | x :: rest =>
      if x = c then some ([], rest)
      else (splitAtChar c rest).map (fun p => (x :: p.1, p.2))

/-- The tokenizing loop of `parseline` (tsh.c lines 279-299): at each step,
if the buffer starts with a single quote the token runs to the closing
quote, otherwise to the next space; a buffer with no delimiter left yields
no further token.  Each step consumes at least the delimiter, so fuel equal
to the buffer length suffices. -/
def parse_go : Nat → List Char → List String
  | 0, _ => []
  | Nat.succ fuel, buf =>
      let p := if buf.head? = some '\x27' then (buf.tail, '\x27') else (buf, ' ')
      match splitAtChar p.2 p.1 with
      | none => []
      | some (tok, rest) => String.mk tok :: parse_go fuel (skipSpaces rest)

/-- `parseline` (tsh.c lines 266-303): replace the trailing newline with a
space (line 273), skip leading spaces, tokenize, and return the argument
vector together with the C function's return value, which is `argc`, the
number of arguments parsed (line 302). -/
def parseline (cmdline : String) : List String × Int :=
  let buf := skipSpaces (cmdline.toList.dropLast ++ [' '])
  let argv := parse_go (buf.length + 1) buf
  (argv, Int.ofNat argv.length)

/-- `builtin_cmd` (tsh.c lines 309-311): the body is `return 0;` for every
argument vector — no built-in command is ever recognized. -/
def builtin_cmd (argv : List String) : Int := 0

/-- `eval`'s foreground decision (tsh.c lines 171-173, 181, 240, 254):
`bg = parseline(buf, argv)`, empty lines are ignored, and the launch path
runs `waitfg` (a foreground launch) exactly when `!builtin_cmd(argv)` and
`!bg`. -/
def eval_runs_foreground (cmdline : String) : Bool :=
  (!(parseline cmdline).1.isEmpty) && (builtin_cmd (parseline cmdline).1 == 0)
    && ((parseline cmdline).2 == 0)

/-- `sigchld_handler` (tsh.c lines 344-346): the body is `return;`, so the
handler's effect on the job table is the identity. -/
def sigchld_handler_jobs (jobs : List job_t) : List job_t := jobs

/-! ### The ordered steps of `eval`'s parent-side launch path -/

/-- The observable steps of `eval`'s launch path for a non-built-in command
(tsh.c lines 196, 198, 240-250, 251, 254-256), in program order. -/
inductive EvalEvent where
  | maskSIGCHLD
  | forkCall
  | addJobCall (state : Int)
  | unmaskSIGCHLD
  | waitfgCall
deriving DecidableEq, Repr

/-- The parent-side trace of `eval`'s launch path, indexed by the value of
the `bg` flag `eval` computed: block SIGCHLD (line 196), fork (line 198),
register the job with state BG or FG (lines 240-250), unblock SIGCHLD
(line 251), and, in the foreground case only, call `waitfg` (lines 254-256). -/
def eval_parent_trace (bg : Bool) : List EvalEvent :=
  [EvalEvent.maskSIGCHLD, EvalEvent.forkCall,
   EvalEvent.addJobCall (if bg then BG else FG), EvalEvent.unmaskSIGCHLD]
    ++ (if bg then [] else [EvalEvent.waitfgCall])

/-! ### Data-model predicates (spec section 3) -/

/-- Well-formed job table: the fixed capacity of the C array, and per slot
the data-model representation invariants — a slot is unused exactly when its
pid is 0, a live pid is positive, and a live jid lies in `1..MAXJOBS`. -/
def Wf (jobs : List job_t) : Prop :=
  jobs.length = MAXJOBS ∧
    ∀ j ∈ jobs,
      (j.pid = 0 ↔ j.jid = 0) ∧ (j.pid ≠ 0 → 1 ≤ j.pid) ∧
        (j.jid ≠ 0 → 1 ≤ j.jid ∧ j.jid ≤ (MAXJOBS : Int))

/-- Id `n` is held by some live (slot-used) job. -/
def IdHeld (jobs : List job_t) (n : Int) : Prop :=
  ∃ j ∈ jobs, j.pid ≠ 0 ∧ j.jid = n

/-- `n` is the smallest positive integer not used as a job id by any live
job of the table. -/
def IsSmallestFreeId (jobs : List job_t) (n : Int) : Prop :=
  1 ≤ n ∧ ¬ IdHeld jobs n ∧ ∀ m : Int, 1 ≤ m → m < n → IdHeld jobs m

/-- No two live slots share a job id. -/
def UniqueJids (jobs : List job_t) : Prop :=
  jobs.Pairwise (fun a b => a.jid ≠ 0 → b.jid ≠ 0 → a.jid ≠ b.jid)

/-- No two live slots share a pid. -/
def UniquePids (jobs : List job_t) : Prop :=
  jobs.Pairwise (fun a b => a.pid ≠ 0 → b.pid ≠ 0 → a.pid ≠ b.pid)

/-- The job tables reachable from the initialized table by the two
implemented table mutators, `addjob` and `deletejob` (failed calls return
the table unchanged, so only successful calls produce new states). -/
inductive JTReach : List job_t → Prop where
  | init : JTReach initjobs
  | add (J : List job_t) (pid st : Int) (cmd : String) (J' : List job_t) :
      JTReach J → addjob J pid st cmd = (1, J') → JTReach J'
  | del (J : List job_t) (pid : Int) (J' : List job_t) :
      JTReach J → deletejob J pid = (1, J') → JTReach J'

/-! ### The shell's state machine on the job table

`do_bgfg` and the three main signal handlers are empty stubs in `tsh.c`
(lines 316-318, 344-364; the file marks them "Core shell functions to
implement"), so their effect on the job table is modelled from the spec
(sections 4.3 and 4.5). -/

/-- Modelled from the spec: the state update that `do_bgfg` and the
child-status handler perform on the job they resolved — set the state of
the (first) slot holding `pid`.  The stubs `do_bgfg` and `sigchld_handler`
are unimplemented in tsh.c; the spec prescribes "set state Background" /
"set state Foreground" / "update its Job state to Stopped" for the job
looked up by pid. -/
def setstate_go (pid st : Int) : List job_t → List job_t
  | [] => []
  | j :: rest =>
      if j.pid = pid then { j with state := st } :: rest
      else j :: setstate_go pid st rest

/-- Modelled from the spec: the child-status handler's update for a
continued child — a Stopped job goes back to Background; a job already
Foreground or Background keeps its state ("update its Job state back to
Background/Foreground as appropriate"). -/
def cont_go (pid : Int) : List job_t → List job_t
  | [] => []
  | j :: rest =>
      if j.pid = pid then
        (if j.state = ST then { j with state := BG } else j) :: rest
      else j :: cont_go pid rest

/-- Number of slots in Foreground state. -/
def fgCount (jobs : List job_t) : Nat :=
  jobs.countP (fun j => j.state == FG)

/-- Every Foreground slot holds a positive pid (auxiliary invariant: the
only writers of state FG are `addjob` and the `fg` resolution, both of
which require a positive pid). -/
def FgPidPos (jobs : List job_t) : Prop :=
  ∀ j ∈ jobs, j.state = FG → 1 ≤ j.pid

/-- The foreground invariant carried through the shell's state machine. -/
def FgInv (jobs : List job_t) : Prop :=
  FgPidPos jobs ∧ fgCount jobs ≤ 1

/-- One step of the shell on the job table.  Main-flow steps (launching,
`bg`, `fg`) carry the guard `fgpid J = 0`: the main control flow reaches
`eval` or `do_bgfg` only after `waitfg` has returned, i.e. when no job is
recorded as Foreground (handlers never promote a job to Foreground, so this
is exactly the sequencing `waitfg` (tsh.c lines 323-333) enforces).
Handler steps (stop/continue/terminate, modelled from spec section 4.3
because `sigchld_handler` is a stub) may fire at any time with any pid. -/
inductive ShellStep : List job_t → List job_t → Prop where
  | launch_bg {J : List job_t} (pid : Int) (cmd : String) {J' : List job_t} :
      fgpid J = 0 → addjob J pid BG cmd = (1, J') → ShellStep J J'
  | launch_fg {J : List job_t} (pid : Int) (cmd : String) {J' : List job_t} :
      fgpid J = 0 → addjob J pid FG cmd = (1, J') → ShellStep J J'
  | do_bg {J : List job_t} (pid : Int) :
      fgpid J = 0 → (getjobpid J pid).isSome → ShellStep J (setstate_go pid BG J)
  | do_fg {J : List job_t} (pid : Int) :
      fgpid J = 0 → (getjobpid J pid).isSome → ShellStep J (setstate_go pid FG J)
  | chld_stop {J : List job_t} (pid : Int) :
      1 ≤ pid → ShellStep J (setstate_go pid ST J)
  | chld_cont {J : List job_t} (pid : Int) :
      ShellStep J (cont_go pid J)
  | chld_term {J : List job_t} (pid : Int) {J' : List job_t} :
      deletejob J pid = (1, J') → ShellStep J J'

/-- Job tables reachable by the shell's operations from the initialized
table. -/
inductive ShellReach : List job_t → Prop where
  | init : ShellReach initjobs
  | step (J J' : List job_t) : ShellReach J → ShellStep J J' → ShellReach J'

/-! ## Helper lemmas -/

theorem all_jid_ne {jobs : List job_t} {i : Int}
    (h : jobs.all (fun j => j.jid != i) = true) : ∀ j ∈ jobs, j.jid ≠ i := by
  intro j hj
  have := List.all_eq_true.mp h j hj
  simpa using this

theorem exists_jid_eq {jobs : List job_t} {i : Int}
    (h : ¬ jobs.all (fun j => j.jid != i) = true) : ∃ j ∈ jobs, j.jid = i := by
  simp only [List.all_eq_true, bne_iff_ne, ne_eq] at h
  push_neg at h
  exact h

theorem freejid_from_pos (jobs : List job_t) :
    ∀ (fuel : Nat) (i n : Int), freejid_from jobs fuel i = n → n ≠ 0 →
      i ≤ n ∧ n ≤ (MAXJOBS : Int) ∧ (∀ j ∈ jobs, j.jid ≠ n) ∧
        ∀ m : Int, i ≤ m → m < n → ∃ j ∈ jobs, j.jid = m := by
  intro fuel
  induction fuel with
  | zero => intro i n h hn; exact absurd h.symm hn
  | succ fuel ih =>
      intro i n h hn
      rw [freejid_from] at h
      by_cases hi : (MAXJOBS : Int) < i
      · rw [if_pos hi] at h; exact absurd h.symm hn
      · rw [if_neg hi] at h
        by_cases hall : jobs.all (fun j => j.jid != i) = true
        · rw [if_pos hall] at h
          subst h
          exact ⟨le_refl _, not_lt.mp hi, all_jid_ne hall, fun m h1 h2 => absurd (lt_of_le_of_lt h1 h2) (lt_irrefl _)⟩
        · rw [if_neg hall] at h
          obtain ⟨h1, h2, h3, h4⟩ := ih (i + 1) n h hn
          refine ⟨by omega, h2, h3, fun m hm1 hm2 => ?_⟩
          rcases eq_or_lt_of_le hm1 with heq | hlt
          · exact heq ▸ exists_jid_eq hall
          · exact h4 m (by omega) hm2

theorem freejid_from_zero (jobs : List job_t) :
    ∀ (fuel : Nat) (i : Int), 1 ≤ i → (MAXJOBS : Int) + 1 ≤ i + fuel →
      freejid_from jobs fuel i = 0 →
      ∀ m : Int, i ≤ m → m ≤ (MAXJOBS : Int) → ∃ j ∈ jobs, j.jid = m := by
  intro fuel
  induction fuel with
  | zero =>
      intro i _ hfe _ m hm1 hm2
      exfalso
      simp only [Nat.cast_zero, add_zero] at hfe
      omega
  | succ fuel ih =>
      intro i hi hfe h m hm1 hm2
      rw [freejid_from] at h
      by_cases hgt : (MAXJOBS : Int) < i
      · omega
      · rw [if_neg hgt] at h
        by_cases hall : jobs.all (fun j => j.jid != i) = true
        · rw [if_pos hall] at h; omega
        · rw [if_neg hall] at h
          rcases eq_or_lt_of_le hm1 with heq | hlt
          · exact heq ▸ exists_jid_eq hall
          · exact ih (i + 1) (by omega) (by push_cast at hfe; omega) h m (by omega) hm2

theorem freejid_pos_spec {jobs : List job_t} (h : freejid jobs ≠ 0) :
    1 ≤ freejid jobs ∧ freejid jobs ≤ (MAXJOBS : Int) ∧
      (∀ j ∈ jobs, j.jid ≠ freejid jobs) ∧
      ∀ m : Int, 1 ≤ m → m < freejid jobs → ∃ j ∈ jobs, j.jid = m := by
  have := freejid_from_pos jobs (MAXJOBS + 1) 1 (freejid jobs) rfl h
  exact ⟨this.1, this.2.1, this.2.2.1, this.2.2.2⟩

theorem freejid_zero_all_taken {jobs : List job_t} (h : freejid jobs = 0) :
    ∀ m : Int, 1 ≤ m → m ≤ (MAXJOBS : Int) → ∃ j ∈ jobs, j.jid = m := by
  intro m hm1 hm2
  exact freejid_from_zero jobs (MAXJOBS + 1) 1 (le_refl _) (by push_cast; omega) h m hm1 hm2

theorem freejid_ne_zero_of_not_full {jobs : List job_t} (hwf : Wf jobs)
    (hfree : ∃ j ∈ jobs, j.pid = 0) : freejid jobs ≠ 0 := by
  intro h0
  have htaken := freejid_zero_all_taken h0
  obtain ⟨hlen, hslots⟩ := hwf
  obtain ⟨d, hd, hdpid⟩ := hfree
  have hdjid : d.jid = 0 := ((hslots d hd).1).mp hdpid
  -- the multiset of jid fields contains 0 and all of 1..MAXJOBS: too many values
  set jl : List Int := jobs.map job_t.jid with hjl
  have hsub : insert (0 : Int) (Finset.Icc (1 : Int) (MAXJOBS : Int)) ⊆ jl.toFinset := by
    intro m hm
    rcases Finset.mem_insert.mp hm with h | h
    · subst h
      exact List.mem_toFinset.mpr (hdjid ▸ List.mem_map_of_mem job_t.jid hd)
    · obtain ⟨hm1, hm2⟩ := Finset.mem_Icc.mp h
      obtain ⟨j, hj, hjid⟩ := htaken m hm1 hm2
      exact List.mem_toFinset.mpr (hjid ▸ List.mem_map_of_mem job_t.jid hj)
  have hcard : (insert (0 : Int) (Finset.Icc (1 : Int) (MAXJOBS : Int))).card = MAXJOBS + 1 := by
    rw [Finset.card_insert_of_not_mem (by simp), Int.card_Icc]
    simp [MAXJOBS]
  have h1 : MAXJOBS + 1 ≤ jl.toFinset.card := hcard ▸ Finset.card_le_card hsub
  have h2 : jl.toFinset.card ≤ jl.length := jl.toFinset_card_le
  have h3 : jl.length = MAXJOBS := by rw [hjl, List.length_map, hlen]
  omega

theorem add_fill_cases (nj : job_t) (l : List job_t) :
    (add_fill nj l).1 = 1 ∨
      ((add_fill nj l).1 = 0 ∧ (add_fill nj l).2 = l ∧ ∀ j ∈ l, j.pid ≠ 0) := by
  induction l with
  | nil => exact Or.inr ⟨rfl, rfl, by simp⟩
  | cons j rest ih =>
      by_cases hj : j.pid = 0
      · exact Or.inl (by simp [add_fill, hj])
      · rcases ih with h | ⟨h1, h2, h3⟩
        · exact Or.inl (by simp [add_fill, hj, h])
        · refine Or.inr ⟨by simp [add_fill, hj, h1], by simp [add_fill, hj, h2], ?_⟩
          intro x hx
          rcases List.mem_cons.mp hx with rfl | hx
          · exact hj
          · exact h3 x hx

theorem add_fill_success {nj : job_t} {l l' : List job_t}
    (h : add_fill nj l = (1, l')) :
    ∃ l1 d l2, l = l1 ++ d :: l2 ∧ d.pid = 0 ∧ (∀ j ∈ l1, j.pid ≠ 0) ∧
      l' = l1 ++ nj :: l2 := by
  induction l generalizing l' with
  | nil => simp [add_fill] at h
  | cons j rest ih =>
      by_cases hj : j.pid = 0
      · refine ⟨[], j, rest, by simp, hj, by simp, ?_⟩
        simp only [add_fill, if_pos hj, Prod.mk.injEq] at h
        simp [h.2.symm]
      · simp only [add_fill, if_neg hj, Prod.mk.injEq] at h
        obtain ⟨h1, h2⟩ := h
        obtain ⟨l1, d, l2, hrest, hd, hl1, hres⟩ := ih (Prod.ext h1 rfl)
        exact ⟨j :: l1, d, l2, by simp [hrest], hd,
          by intro x hx; rcases List.mem_cons.mp hx with rfl | hx; exact hj; exact hl1 x hx,
          by simp [h2.symm, hres]⟩

theorem delete_go_cases (pid : Int) (l : List job_t) :
    (delete_go pid l).1 = 1 ∨
      ((delete_go pid l).1 = 0 ∧ (delete_go pid l).2 = l ∧ ∀ j ∈ l, j.pid ≠ pid) := by
  induction l with
  | nil => exact Or.inr ⟨rfl, rfl, by simp⟩
  | cons j rest ih =>
      by_cases hj : j.pid = pid
      · exact Or.inl (by simp [delete_go, hj])
      · rcases ih with h | ⟨h1, h2, h3⟩
        · exact Or.inl (by simp [delete_go, hj, h])
        · refine Or.inr ⟨by simp [delete_go, hj, h1], by simp [delete_go, hj, h2], ?_⟩
          intro x hx
          rcases List.mem_cons.mp hx with rfl | hx
          · exact hj
          · exact h3 x hx

theorem delete_go_success {pid : Int} {l l' : List job_t}
    (h : delete_go pid l = (1, l')) :
    ∃ l1 d l2, l = l1 ++ d :: l2 ∧ d.pid = pid ∧ (∀ j ∈ l1, j.pid ≠ pid) ∧
      l' = l1 ++ clearedJob :: l2 := by
  induction l generalizing l' with
  | nil => simp [delete_go] at h
  | cons j rest ih =>
      by_cases hj : j.pid = pid
      · refine ⟨[], j, rest, by simp, hj, by simp, ?_⟩
        simp only [delete_go, if_pos hj, Prod.mk.injEq] at h
        simp [h.2.symm]
      · simp only [delete_go, if_neg hj, Prod.mk.injEq] at h
        obtain ⟨h1, h2⟩ := h
        obtain ⟨l1, d, l2, hrest, hd, hl1, hres⟩ := ih (Prod.ext h1 rfl)
        exact ⟨j :: l1, d, l2, by simp [hrest], hd,
          by intro x hx; rcases List.mem_cons.mp hx with rfl | hx; exact hj; exact hl1 x hx,
          by simp [h2.symm, hres]⟩

theorem find?_append_of_none {α : Type} {l1 l2 : List α} {p : α → Bool}
    (h : ∀ x ∈ l1, p x = false) : (l1 ++ l2).find? p = l2.find? p := by
  induction l1 with
  | nil => simp
  | cons x rest ih =>
      have hx : p x = false := h x (List.mem_cons_self x rest)
      simp only [List.cons_append, List.find?, hx]
      exact ih fun y hy => h y (List.mem_cons_of_mem x hy)

theorem delete_go_append_of_ne {pid : Int} {l1 l2 : List job_t}
    (h : ∀ x ∈ l1, x.pid ≠ pid) :
    delete_go pid (l1 ++ l2) = ((delete_go pid l2).1, l1 ++ (delete_go pid l2).2) := by
  induction l1 with
  | nil => simp
  | cons x rest ih =>
      have hx : x.pid ≠ pid := h x (List.mem_cons_self x rest)
      simp only [List.cons_append, delete_go, if_neg hx]
      simp only [List.append_eq]
      rw [ih fun y hy => h y (List.mem_cons_of_mem x hy)]

theorem addjob_success_struct {J J' : List job_t} {pid st : Int} {cmd : String}
    (h : addjob J pid st cmd = (1, J')) :
    1 ≤ pid ∧ freejid J ≠ 0 ∧
      ∃ l1 d l2, J = l1 ++ d :: l2 ∧ d.pid = 0 ∧ (∀ j ∈ l1, j.pid ≠ 0) ∧
        J' = l1 ++ job_t.mk pid (freejid J) st cmd :: l2 := by
  unfold addjob at h
  by_cases hp : pid < 1
  · rw [if_pos hp] at h; simp at h
  · rw [if_neg hp] at h
    by_cases hf : freejid J = 0
    · simp only [hf, if_pos] at h; simp at h
    · rw [if_neg hf] at h
      exact ⟨by omega, hf, add_fill_success h⟩

theorem wf_mem_live_jid {J : List job_t} (hwf : Wf J) {j : job_t} (hj : j ∈ J)
    (hjid : j.jid ≠ 0) : j.pid ≠ 0 := by
  intro hpid
  exact hjid (((hwf.2 j hj).1).mp hpid)

theorem freejid_is_smallest {J : List job_t} (hwf : Wf J) (h : freejid J ≠ 0) :
    IsSmallestFreeId J (freejid J) := by
  obtain ⟨h1, _, h3, h4⟩ := freejid_pos_spec h
  refine ⟨h1, ?_, ?_⟩
  · rintro ⟨j, hj, _, hjid⟩
    exact h3 j hj hjid
  · intro m hm1 hm2
    obtain ⟨j, hj, hjid⟩ := h4 m hm1 hm2
    have : j.jid ≠ 0 := by omega
    exact ⟨j, hj, wf_mem_live_jid hwf hj this, hjid⟩

/-- C2: `addjob` fails exactly when the table is full or `pid < 1`; on
success the newly filled slot (previously unused) carries exactly the given
pid and state, its jid is `freejid J`, and that jid is the smallest positive
integer not held by any live job; all other slots are untouched. -/
theorem addjob_contract (J : List job_t) (pid st : Int) (cmd : String) (hwf : Wf J) :
    ((addjob J pid st cmd).1 = 0 ↔ ((∀ j ∈ J, j.pid ≠ 0) ∨ pid < 1)) ∧
      ∀ J', addjob J pid st cmd = (1, J') →
        ∃ l1 d l2, J = l1 ++ d :: l2 ∧ d.pid = 0 ∧
          J' = l1 ++ job_t.mk pid (freejid J) st cmd :: l2 ∧
          IsSmallestFreeId J (freejid J) := by
  constructor
  · constructor
    · intro h0
      by_cases hp : pid < 1
      · exact Or.inr hp
      · left
        unfold addjob at h0
        rw [if_neg hp] at h0
        by_cases hf : freejid J = 0
        · intro j hj hpid
          exact freejid_ne_zero_of_not_full hwf ⟨j, hj, hpid⟩ hf
        · rw [if_neg hf] at h0
          rcases add_fill_cases (job_t.mk pid (freejid J) st cmd) J with h | ⟨_, _, h3⟩
          · omega
          · exact h3
    · intro h
      rcases h with hfull | hp
      · unfold addjob
        by_cases hp : pid < 1
        · rw [if_pos hp]
        · rw [if_neg hp]
          by_cases hf : freejid J = 0
          · simp [hf]
          · rw [if_neg hf]
            rcases add_fill_cases (job_t.mk pid (freejid J) st cmd) J with h1 | ⟨h1, _, _⟩
            · obtain ⟨l1, d, _, hJ, hd, _, _⟩ :=
                add_fill_success (Prod.ext h1 rfl)
              exact absurd hd (hfull d (by rw [hJ]; simp))
            · exact h1
      · unfold addjob; rw [if_pos hp]
  · intro J' h
    obtain ⟨_, hf, l1, d, l2, hJ, hd, _, hJ'⟩ := addjob_success_struct h
    exact ⟨l1, d, l2, hJ, hd, hJ', freejid_is_smallest hwf hf⟩

/-- Witness for C2 at the initialized table, pid 5, state BG. -/
theorem addjob_contract_witness :
    Wf initjobs ∧
      (((addjob initjobs 5 BG "./myspin 10 &").1 = 0 ↔
          ((∀ j ∈ initjobs, j.pid ≠ 0) ∨ (5 : Int) < 1)) ∧
        ∀ J', addjob initjobs 5 BG "./myspin 10 &" = (1, J') →
          ∃ l1 d l2, initjobs = l1 ++ d :: l2 ∧ d.pid = 0 ∧
            J' = l1 ++ job_t.mk 5 (freejid initjobs) BG "./myspin 10 &" :: l2 ∧
            IsSmallestFreeId initjobs (freejid initjobs)) :=
  ⟨by unfold Wf; decide, addjob_contract initjobs 5 BG "./myspin 10 &" (by unfold Wf; decide)⟩

theorem wf_replace {l1 l2 : List job_t} {d nj : job_t}
    (hwf : Wf (l1 ++ d :: l2))
    (hnj : (nj.pid = 0 ↔ nj.jid = 0) ∧ (nj.pid ≠ 0 → 1 ≤ nj.pid) ∧
      (nj.jid ≠ 0 → 1 ≤ nj.jid ∧ nj.jid ≤ (MAXJOBS : Int))) :
    Wf (l1 ++ nj :: l2) := by
  obtain ⟨hlen, hslots⟩ := hwf
  constructor
  · simp only [List.length_append, List.length_cons] at hlen ⊢
    omega
  · intro j hj
    rcases List.mem_append.mp hj with hj | hj
    · exact hslots j (List.mem_append_left _ hj)
    · rcases List.mem_cons.mp hj with rfl | hj
      · exact hnj
      · exact hslots j (List.mem_append_right _ (List.mem_cons_of_mem d hj))

theorem wf_addjob {J J' : List job_t} {pid st : Int} {cmd : String}
    (hwf : Wf J) (h : addjob J pid st cmd = (1, J')) : Wf J' := by
  obtain ⟨hp, hf, l1, d, l2, hJ, _, _, hJ'⟩ := addjob_success_struct h
  obtain ⟨h1, h2, _, _⟩ := freejid_pos_spec hf
  rw [hJ] at hwf
  rw [hJ']
  refine wf_replace hwf ⟨⟨fun hc => ?_, fun hc => ?_⟩, fun _ => hp, fun _ => ⟨h1, h2⟩⟩
  · exact absurd (show pid = 0 from hc) (by omega)
  · exact absurd (show freejid J = 0 from hc) hf

theorem unique_addjob {J J' : List job_t} {pid st : Int} {cmd : String}
    (hu : UniqueJids J) (h : addjob J pid st cmd = (1, J')) : UniqueJids J' := by
  obtain ⟨_, hf, l1, d, l2, hJ, _, _, hJ'⟩ := addjob_success_struct h
  have hne : ∀ j ∈ l1 ++ d :: l2, j.jid ≠ freejid J := by
    rw [← hJ]
    exact (freejid_pos_spec hf).2.2.1
  rw [hJ] at hu
  rw [hJ']
  rw [UniqueJids, List.pairwise_append] at hu ⊢
  obtain ⟨hu1, hu2, hu3⟩ := hu
  rw [List.pairwise_cons] at hu2 ⊢
  refine ⟨hu1, ⟨?_, hu2.2⟩, ?_⟩
  · intro b hb _ _
    have hb' : b.jid ≠ freejid J := hne b (List.mem_append_right _ (List.mem_cons_of_mem d hb))
    exact fun hc => hb' (show b.jid = freejid J from hc.symm)
  · intro a ha b hb
    rcases List.mem_cons.mp hb with rfl | hb
    · intro _ _
      exact fun hc => hne a (List.mem_append_left _ ha) (show a.jid = freejid J from hc)
    · exact hu3 a ha b (List.mem_cons_of_mem d hb)

theorem deletejob_success_struct {J J' : List job_t} {pid : Int}
    (h : deletejob J pid = (1, J')) :
    1 ≤ pid ∧
      ∃ l1 d l2, J = l1 ++ d :: l2 ∧ d.pid = pid ∧ (∀ j ∈ l1, j.pid ≠ pid) ∧
        J' = l1 ++ clearedJob :: l2 := by
  unfold deletejob at h
  by_cases hp : pid < 1
  · rw [if_pos hp] at h; simp at h
  · rw [if_neg hp] at h
    exact ⟨by omega, delete_go_success h⟩

theorem wf_deletejob {J J' : List job_t} {pid : Int}
    (hwf : Wf J) (h : deletejob J pid = (1, J')) : Wf J' := by
  obtain ⟨_, l1, d, l2, hJ, _, _, hJ'⟩ := deletejob_success_struct h
  rw [hJ] at hwf
  rw [hJ']
  exact wf_replace hwf ⟨Iff.rfl, fun hc => absurd rfl hc, fun hc => absurd rfl hc⟩

theorem unique_deletejob {J J' : List job_t} {pid : Int}
    (hu : UniqueJids J) (h : deletejob J pid = (1, J')) : UniqueJids J' := by
  obtain ⟨_, l1, d, l2, hJ, _, _, hJ'⟩ := deletejob_success_struct h
  rw [hJ] at hu
  rw [hJ']
  rw [UniqueJids, List.pairwise_append] at hu ⊢
  obtain ⟨hu1, hu2, hu3⟩ := hu
  rw [List.pairwise_cons] at hu2 ⊢
  refine ⟨hu1, ⟨?_, hu2.2⟩, ?_⟩
  · intro b _ hc
    exact absurd (show clearedJob.jid = 0 from rfl) hc
  · intro a ha b hb
    rcases List.mem_cons.mp hb with rfl | hb
    · intro _ hc
      exact absurd (show clearedJob.jid = 0 from rfl) hc
    · exact hu3 a ha b (List.mem_cons_of_mem d hb)

theorem jtreach_inv {J : List job_t} (h : JTReach J) : Wf J ∧ UniqueJids J := by
  induction h with
  | init => exact ⟨by unfold Wf; decide, by unfold UniqueJids; decide⟩
  | add J pid st cmd J' _ hadd ih => exact ⟨wf_addjob ih.1 hadd, unique_addjob ih.2 hadd⟩
  | del J pid J' _ hdel ih => exact ⟨wf_deletejob ih.1 hdel, unique_deletejob ih.2 hdel⟩

/-! ## More claim theorems -/

/-- C3: in every table reachable from the initialized table by `addjob` and
`deletejob`, no two live slots share a job id, and every id `addjob`
assigns — after arbitrary interleaved deletions, hence including reclaimed
ids — is the smallest positive integer not held by any live job at the
time of the call. -/
theorem jobtable_unique_and_smallest_ids (J : List job_t) (h : JTReach J) :
    UniqueJids J ∧
      ∀ (pid st : Int) (cmd : String) (J' : List job_t),
        addjob J pid st cmd = (1, J') →
          ∃ l1 l2, J' = l1 ++ job_t.mk pid (freejid J) st cmd :: l2 ∧
            IsSmallestFreeId J (freejid J) := by
  refine ⟨(jtreach_inv h).2, fun pid st cmd J' hadd => ?_⟩
  obtain ⟨_, hf, l1, d, l2, _, _, _, hJ'⟩ := addjob_success_struct hadd
  exact ⟨l1, l2, hJ', freejid_is_smallest (jtreach_inv h).1 hf⟩

/-- Witness for C3 at a reachable table exercising id reclaim: add pid 5
(jid 1), add pid 9 (jid 2), delete pid 5 — jid 1 is free again and is the
next id assigned. -/
theorem jobtable_unique_and_smallest_ids_witness :
    JTReach ((deletejob ((addjob ((addjob initjobs 5 BG "a &").2) 9 BG "b &").2) 5).2) ∧
      (UniqueJids ((deletejob ((addjob ((addjob initjobs 5 BG "a &").2) 9 BG "b &").2) 5).2) ∧
        ∀ (pid st : Int) (cmd : String) (J' : List job_t),
          addjob ((deletejob ((addjob ((addjob initjobs 5 BG "a &").2) 9 BG "b &").2) 5).2)
              pid st cmd = (1, J') →
            ∃ l1 l2, J' = l1 ++ job_t.mk pid
                (freejid ((deletejob ((addjob ((addjob initjobs 5 BG "a &").2) 9 BG "b &").2) 5).2))
                st cmd :: l2 ∧
              IsSmallestFreeId
                ((deletejob ((addjob ((addjob initjobs 5 BG "a &").2) 9 BG "b &").2) 5).2)
                (freejid ((deletejob ((addjob ((addjob initjobs 5 BG "a &").2) 9 BG "b &").2) 5).2))) :=
  have hr : JTReach ((deletejob ((addjob ((addjob initjobs 5 BG "a &").2) 9 BG "b &").2) 5).2) :=
    JTReach.del ((addjob ((addjob initjobs 5 BG "a &").2) 9 BG "b &").2) 5
      ((deletejob ((addjob ((addjob initjobs 5 BG "a &").2) 9 BG "b &").2) 5).2)
      (JTReach.add ((addjob initjobs 5 BG "a &").2) 9 BG "b &"
        ((addjob ((addjob initjobs 5 BG "a &").2) 9 BG "b &").2)
        (JTReach.add initjobs 5 BG "a &" ((addjob initjobs 5 BG "a &").2)
          JTReach.init (by decide))
        (by decide))
      (by decide)
  ⟨hr, jobtable_unique_and_smallest_ids _ hr⟩

/-- C1: the spec claims `parseline` returns a boolean that is true exactly
when the line ends in a trailing `&`, and that a nonempty line without `&`
yields background = false so that `eval` launches it in the foreground.
The code instead returns `argc`: the line `"ls\n"` has no trailing `&`,
yet `parseline` returns 1, which `eval` treats as a true background flag,
so the command is not launched as a foreground job (and a trailing `&` is
not stripped — it stays in the argument vector). -/
theorem parseline_returns_argc_not_bg_flag :
    parseline "ls\n" = (["ls"], 1) ∧ (parseline "ls\n").2 ≠ 0 ∧
      eval_runs_foreground "ls\n" = false ∧
      parseline "sleep 5 &\n" = (["sleep", "5", "&"], 3) := by
  refine ⟨by decide, by decide, by decide, by decide⟩

/-- C7: the spec claims `builtin_cmd` recognizes `quit`, `jobs`, `bg` and
`fg` and executes them rather than handing them to the launcher.  The code
is the stub `return 0;`, so every one of these argument vectors — like
every other one — is reported as not built-in (the "every other first word
returns 0" half does hold, vacuously). -/
theorem builtin_cmd_never_recognizes :
    builtin_cmd ["quit"] = 0 ∧ builtin_cmd ["jobs"] = 0 ∧
      builtin_cmd ["bg", "%1"] = 0 ∧ builtin_cmd ["fg", "%1"] = 0 ∧
      ∀ argv : List String, builtin_cmd argv = 0 :=
  ⟨rfl, rfl, rfl, rfl, fun _ => rfl⟩

/-- C6: the spec claims the child-status handler removes the job of a
terminated child and updates states on stop/continue.  The code is the
stub `return;`: after registering pid 7 and delivering any child status
change, the handler leaves the table unchanged and the job is still
present with its original state. -/
theorem sigchld_handler_leaves_table_unchanged :
    sigchld_handler_jobs ((addjob initjobs 7 BG "./myspin 10 &").2)
        = (addjob initjobs 7 BG "./myspin 10 &").2 ∧
      getjobpid (sigchld_handler_jobs ((addjob initjobs 7 BG "./myspin 10 &").2)) 7
        = some (job_t.mk 7 1 BG "./myspin 10 &") := by
  refine ⟨rfl, by decide⟩

/-- C8: in `eval`'s launch path, SIGCHLD is masked before `fork`, the job
is registered (state BG or FG according to `eval`'s `bg` flag) before
SIGCHLD is unmasked, and in the foreground case SIGCHLD is unmasked before
`waitfg` is invoked. -/
theorem eval_launch_path_order :
    (∀ bg : Bool,
      EvalEvent.maskSIGCHLD ∈ eval_parent_trace bg ∧
      EvalEvent.forkCall ∈ eval_parent_trace bg ∧
      EvalEvent.addJobCall (if bg then BG else FG) ∈ eval_parent_trace bg ∧
      EvalEvent.unmaskSIGCHLD ∈ eval_parent_trace bg ∧
      (eval_parent_trace bg).indexOf EvalEvent.maskSIGCHLD
        < (eval_parent_trace bg).indexOf EvalEvent.forkCall ∧
      (eval_parent_trace bg).indexOf EvalEvent.forkCall
        < (eval_parent_trace bg).indexOf (EvalEvent.addJobCall (if bg then BG else FG)) ∧
      (eval_parent_trace bg).indexOf (EvalEvent.addJobCall (if bg then BG else FG))
        < (eval_parent_trace bg).indexOf EvalEvent.unmaskSIGCHLD) ∧
    EvalEvent.waitfgCall ∈ eval_parent_trace false ∧
    (eval_parent_trace false).indexOf EvalEvent.unmaskSIGCHLD
      < (eval_parent_trace false).indexOf EvalEvent.waitfgCall ∧
    EvalEvent.waitfgCall ∉ eval_parent_trace true := by
  refine ⟨fun bg => ?_, by decide, by decide, by decide⟩
  cases bg <;> exact ⟨by decide, by decide, by decide, by decide, by decide, by decide, by decide⟩

/-- C10: every query and removal with a non-positive identifier reports
not-found and leaves the table untouched, for every table: `getjobpid` and
`getjobjid` return no job, `pid2jid` returns 0, and `deletejob` fails with
the table unchanged. -/
theorem lookups_reject_nonpositive_ids (J : List job_t) (pid jid : Int)
    (hp : pid < 1) (hj : jid < 1) :
    getjobpid J pid = none ∧ getjobjid J jid = none ∧
      pid2jid J pid = 0 ∧ deletejob J pid = (0, J) := by
  simp [getjobpid, getjobjid, pid2jid, deletejob, hp, hj]

/-- Witness for C10 at a table that does hold live jobs (pids 7 and 9),
with pid 0 and jid -3. -/
theorem lookups_reject_nonpositive_ids_witness :
    (0 : Int) < 1 ∧ (-3 : Int) < 1 ∧
      (getjobpid ((addjob ((addjob initjobs 7 BG "a &").2) 9 BG "b &").2) 0 = none ∧
        getjobjid ((addjob ((addjob initjobs 7 BG "a &").2) 9 BG "b &").2) (-3) = none ∧
        pid2jid ((addjob ((addjob initjobs 7 BG "a &").2) 9 BG "b &").2) 0 = 0 ∧
        deletejob ((addjob ((addjob initjobs 7 BG "a &").2) 9 BG "b &").2) 0
          = (0, (addjob ((addjob initjobs 7 BG "a &").2) 9 BG "b &").2)) :=
  ⟨by decide, by decide,
    lookups_reject_nonpositive_ids ((addjob ((addjob initjobs 7 BG "a &").2) 9 BG "b &").2)
      0 (-3) (by decide) (by decide)⟩

theorem beq_pid_false_of_ne {j : job_t} {pid : Int} (h : j.pid ≠ pid) :
    (j.pid == pid) = false := by
  simpa using h

theorem beq_jid_false_of_ne {j : job_t} {jid : Int} (h : j.jid ≠ jid) :
    (j.jid == jid) = false := by
  simpa using h

/-- C5: a job added by `addjob` under a fresh pid is retrievable via
`getjobpid` (by its pid) and via `getjobjid` (by its assigned jid
`freejid J`), both lookups returning the identical slot — same pid, jid,
state and command line; after `deletejob` of that pid succeeds, both
lookups return no job. -/
theorem add_lookup_roundtrip (J : List job_t) (pid st : Int) (cmd : String)
    (J' : List job_t) (hfresh : ∀ j ∈ J, j.pid ≠ pid)
    (hadd : addjob J pid st cmd = (1, J')) :
    getjobpid J' pid = some (job_t.mk pid (freejid J) st cmd) ∧
      getjobjid J' (freejid J) = some (job_t.mk pid (freejid J) st cmd) ∧
      ∃ J'', deletejob J' pid = (1, J'') ∧
        getjobpid J'' pid = none ∧ getjobjid J'' (freejid J) = none := by
  obtain ⟨hp, hf, l1, d, l2, hJ, hd, hl1, hJ'⟩ := addjob_success_struct hadd
  obtain ⟨h1, _, hjne, _⟩ := freejid_pos_spec hf
  have hnp : ¬ pid < 1 := by omega
  have hnj1 : ¬ freejid J < 1 := by omega
  have hl1pid : ∀ x ∈ l1, (x.pid == pid) = false := fun x hx =>
    beq_pid_false_of_ne (hfresh x (by rw [hJ]; exact List.mem_append_left _ hx))
  have hl1jid : ∀ x ∈ l1, (x.jid == freejid J) = false := fun x hx =>
    beq_jid_false_of_ne (hjne x (by rw [hJ]; exact List.mem_append_left _ hx))
  have hl2pid : ∀ x ∈ l2, x.pid ≠ pid := fun x hx =>
    hfresh x (by rw [hJ]; exact List.mem_append_right _ (List.mem_cons_of_mem d hx))
  have hl2jid : ∀ x ∈ l2, x.jid ≠ freejid J := fun x hx =>
    hjne x (by rw [hJ]; exact List.mem_append_right _ (List.mem_cons_of_mem d hx))
  refine ⟨?_, ?_, ?_⟩
  · rw [getjobpid, if_neg hnp, hJ', find?_append_of_none hl1pid]
    exact List.find?_cons_of_pos _ (by simp)
  · rw [getjobjid, if_neg hnj1, hJ', find?_append_of_none hl1jid]
    exact List.find?_cons_of_pos _ (by simp)
  · have hdel : deletejob J' pid = (1, l1 ++ clearedJob :: l2) := by
      rw [deletejob, if_neg hnp, hJ',
        delete_go_append_of_ne (fun x hx => (beq_eq_false_iff_ne.mp (hl1pid x hx)))]
      simp [delete_go]
    refine ⟨l1 ++ clearedJob :: l2, hdel, ?_, ?_⟩
    · rw [getjobpid, if_neg hnp]
      rw [List.find?_eq_none]
      intro x hx
      rcases List.mem_append.mp hx with hx | hx
      · simp [beq_eq_false_iff_ne.mp (hl1pid x hx)]
      · rcases List.mem_cons.mp hx with rfl | hx
        · have : clearedJob.pid = 0 := rfl
          simp [this]
          omega
        · simp [hl2pid x hx]
    · rw [getjobjid, if_neg hnj1]
      rw [List.find?_eq_none]
      intro x hx
      rcases List.mem_append.mp hx with hx | hx
      · simp [beq_eq_false_iff_ne.mp (hl1jid x hx)]
      · rcases List.mem_cons.mp hx with rfl | hx
        · have : clearedJob.jid = 0 := rfl
          simp [this]
          omega
        · simp [hl2jid x hx]

/-- Witness for C5: add pid 5 to the empty table and look it up both ways,
then delete it and observe both lookups fail. -/
theorem add_lookup_roundtrip_witness :
    getjobpid ((addjob initjobs 5 BG "./myspin 3\n").2) 5
        = some (job_t.mk 5 (freejid initjobs) BG "./myspin 3\n") ∧
      getjobjid ((addjob initjobs 5 BG "./myspin 3\n").2) (freejid initjobs)
        = some (job_t.mk 5 (freejid initjobs) BG "./myspin 3\n") ∧
      ∃ J'', deletejob ((addjob initjobs 5 BG "./myspin 3\n").2) 5 = (1, J'') ∧
        getjobpid J'' 5 = none ∧ getjobjid J'' (freejid initjobs) = none :=
  add_lookup_roundtrip initjobs 5 BG "./myspin 3\n"
    ((addjob initjobs 5 BG "./myspin 3\n").2) (by decide) (by decide)

/-- C9: under the data-model invariants (well-formed table, live pids
unique), `deletejob` fails exactly when no live slot holds the pid; a
failing call leaves the table unchanged; a successful call clears exactly
the one slot holding the pid (no other slot matches it) and leaves every
other slot untouched. -/
theorem deletejob_contract (J : List job_t) (pid : Int)
    (hwf : Wf J) (hu : UniquePids J) :
    ((deletejob J pid).1 = 0 ↔ ¬ ∃ j ∈ J, j.pid ≠ 0 ∧ j.pid = pid) ∧
      ((deletejob J pid).1 = 0 → (deletejob J pid).2 = J) ∧
      ∀ J', deletejob J pid = (1, J') →
        ∃ l1 d l2, J = l1 ++ d :: l2 ∧ d.pid = pid ∧
          (∀ j ∈ l1, j.pid ≠ pid) ∧ (∀ j ∈ l2, j.pid ≠ pid) ∧
          J' = l1 ++ clearedJob :: l2 := by
  by_cases hp : pid < 1
  · refine ⟨?_, ?_, ?_⟩
    · rw [deletejob, if_pos hp]
      simp only [true_iff]
      rintro ⟨j, hj, hj0, hjp⟩
      have := (hwf.2 j hj).2.1 hj0
      omega
    · rw [deletejob, if_pos hp]
      intro
      rfl
    · intro J' hdel
      rw [deletejob, if_pos hp] at hdel
      simp at hdel
  · have hgo : deletejob J pid = delete_go pid J := by rw [deletejob, if_neg hp]
    rcases delete_go_cases pid J with h1 | ⟨h1, h2, h3⟩
    · have hpair : delete_go pid J = (1, (delete_go pid J).2) := Prod.ext h1 rfl
      obtain ⟨l1, d, l2, hJ, hd, hl1, _⟩ := delete_go_success hpair
      refine ⟨?_, ?_, ?_⟩
      · rw [hgo, h1]
        simp only [one_ne_zero, false_iff, not_not]
        exact ⟨d, by rw [hJ]; exact List.mem_append_right _ (List.mem_cons_self d l2),
          by omega, hd⟩
      · rw [hgo, h1]
        intro h
        omega
      · intro J' hdel
        rw [hgo] at hdel
        obtain ⟨m1, e, m2, hJ2, he, hm1, hres⟩ := delete_go_success hdel
        refine ⟨m1, e, m2, hJ2, he, hm1, ?_, hres⟩
        have hulist : UniquePids (m1 ++ e :: m2) := by rw [← hJ2]; exact hu
        rw [UniquePids, List.pairwise_append] at hulist
        have hcross := (List.pairwise_cons.mp hulist.2.1).1
        intro b hb hbp
        exact hcross b hb (by omega) (by rw [hbp]; omega) (by rw [he, hbp])
    · refine ⟨?_, ?_, ?_⟩
      · rw [hgo, h1]
        simp only [true_iff]
        rintro ⟨j, hj, _, hjp⟩
        exact h3 j hj hjp
      · intro
        rw [hgo, h2]
      · intro J' hdel
        rw [hgo] at hdel
        have : (1 : Int) = 0 := by rw [← h1, hdel]
        simp at this

/-- Witness for C9 at a two-job table (pids 5 and 9), deleting pid 5. -/
theorem deletejob_contract_witness :
    Wf ((addjob ((addjob initjobs 5 BG "a &").2) 9 BG "b &").2) ∧
      UniquePids ((addjob ((addjob initjobs 5 BG "a &").2) 9 BG "b &").2) ∧
      (((deletejob ((addjob ((addjob initjobs 5 BG "a &").2) 9 BG "b &").2) 5).1 = 0 ↔
          ¬ ∃ j ∈ (addjob ((addjob initjobs 5 BG "a &").2) 9 BG "b &").2,
            j.pid ≠ 0 ∧ j.pid = 5) ∧
        (((deletejob ((addjob ((addjob initjobs 5 BG "a &").2) 9 BG "b &").2) 5).1 = 0 →
          (deletejob ((addjob ((addjob initjobs 5 BG "a &").2) 9 BG "b &").2) 5).2
            = (addjob ((addjob initjobs 5 BG "a &").2) 9 BG "b &").2)) ∧
        ∀ J', deletejob ((addjob ((addjob initjobs 5 BG "a &").2) 9 BG "b &").2) 5 = (1, J') →
          ∃ l1 d l2, (addjob ((addjob initjobs 5 BG "a &").2) 9 BG "b &").2 = l1 ++ d :: l2 ∧
            d.pid = 5 ∧ (∀ j ∈ l1, j.pid ≠ 5) ∧ (∀ j ∈ l2, j.pid ≠ 5) ∧
            J' = l1 ++ clearedJob :: l2) :=
  ⟨by unfold Wf; decide, by unfold UniquePids; decide,
    deletejob_contract ((addjob ((addjob initjobs 5 BG "a &").2) 9 BG "b &").2) 5
      (by unfold Wf; decide) (by unfold UniquePids; decide)⟩

/-! ## The foreground invariant (C4) -/

theorem fgCount_split (l1 l2 : List job_t) (x : job_t) :
    fgCount (l1 ++ x :: l2) = fgCount l1 + (if x.state = FG then 1 else 0) + fgCount l2 := by
  simp only [fgCount, List.countP_append, List.countP_cons]
  by_cases hx : x.state = FG
  · have hb : (x.state == FG) = true := by simpa using hx
    rw [hb, if_pos hx, if_pos rfl]
    omega
  · have hb : (x.state == FG) = false := by simpa using hx
    rw [hb, if_neg hx, if_neg (by simp)]
    omega

theorem fgpid_zero_count {J : List job_t} (haux : FgPidPos J) (h : fgpid J = 0) :
    fgCount J = 0 := by
  cases hfind : J.find? (fun j => j.state == FG) with
  | none =>
      rw [fgCount, List.countP_eq_zero]
      intro j hj
      exact List.find?_eq_none.mp hfind j hj
  | some j =>
      exfalso
      have hj : fgpid J = j.pid := by rw [fgpid, hfind]
      have hmem := List.mem_of_find?_eq_some hfind
      have hst : j.state = FG := by simpa using List.find?_some hfind
      have := haux j hmem hst
      omega

theorem getjobpid_isSome_pos {J : List job_t} {pid : Int}
    (h : (getjobpid J pid).isSome = true) : 1 ≤ pid := by
  rw [getjobpid] at h
  by_cases hp : pid < 1
  · rw [if_pos hp] at h
    simp at h
  · omega

theorem setstate_go_cases (pid st : Int) (l : List job_t) :
    setstate_go pid st l = l ∨
      ∃ l1 m l2, l = l1 ++ m :: l2 ∧ m.pid = pid ∧
        setstate_go pid st l = l1 ++ { m with state := st } :: l2 := by
  induction l with
  | nil => exact Or.inl rfl
  | cons j rest ih =>
      by_cases hj : j.pid = pid
      · exact Or.inr ⟨[], j, rest, by simp, hj, by simp [setstate_go, hj]⟩
      · rcases ih with h | ⟨l1, m, l2, hrest, hm, hset⟩
        · exact Or.inl (by simp [setstate_go, hj, h])
        · exact Or.inr ⟨j :: l1, m, l2, by simp [hrest], hm,
            by simp [setstate_go, hj, hset]⟩

theorem cont_go_cases (pid : Int) (l : List job_t) :
    cont_go pid l = l ∨
      ∃ l1 m l2, l = l1 ++ m :: l2 ∧ m.pid = pid ∧
        cont_go pid l = l1 ++ (if m.state = ST then { m with state := BG } else m) :: l2 := by
  induction l with
  | nil => exact Or.inl rfl
  | cons j rest ih =>
      by_cases hj : j.pid = pid
      · exact Or.inr ⟨[], j, rest, by simp, hj, by simp [cont_go, hj]⟩
      · rcases ih with h | ⟨l1, m, l2, hrest, hm, hset⟩
        · exact Or.inl (by simp [cont_go, hj, h])
        · exact Or.inr ⟨j :: l1, m, l2, by simp [hrest], hm,
            by simp [cont_go, hj, hset]⟩

theorem fgpidpos_replace {l1 l2 : List job_t} {m m' : job_t}
    (haux : FgPidPos (l1 ++ m :: l2))
    (hm' : m'.state = FG → 1 ≤ m'.pid) : FgPidPos (l1 ++ m' :: l2) := by
  intro j hj
  rcases List.mem_append.mp hj with hj | hj
  · exact haux j (List.mem_append_left _ hj)
  · rcases List.mem_cons.mp hj with rfl | hj
    · exact hm'
    · exact haux j (List.mem_append_right _ (List.mem_cons_of_mem m hj))

theorem fginv_replace_notfg {l1 l2 : List job_t} {m m' : job_t}
    (hinv : FgInv (l1 ++ m :: l2)) (hm' : m'.state ≠ FG) :
    FgInv (l1 ++ m' :: l2) := by
  obtain ⟨haux, hcount⟩ := hinv
  refine ⟨fgpidpos_replace haux (fun hc => absurd hc hm'), ?_⟩
  rw [fgCount_split] at hcount ⊢
  rw [if_neg hm']
  by_cases hm : m.state = FG
  · rw [if_pos hm] at hcount
    omega
  · rw [if_neg hm] at hcount
    omega

theorem fginv_step {J J' : List job_t} (hinv : FgInv J) (h : ShellStep J J') :
    FgInv J' := by
  obtain ⟨haux, hcount⟩ := hinv
  cases h with
  | launch_bg pid cmd hfg hadd =>
      obtain ⟨hp, _, l1, d, l2, hJ, _, _, hJ'⟩ := addjob_success_struct hadd
      subst hJ
      subst hJ'
      exact fginv_replace_notfg ⟨haux, hcount⟩
        (fun hc => absurd (show BG = FG from hc) (by decide))
  | launch_fg pid cmd hfg hadd =>
      obtain ⟨hp, _, l1, d, l2, hJ, _, _, hJ'⟩ := addjob_success_struct hadd
      subst hJ
      subst hJ'
      have hzero := fgpid_zero_count haux hfg
      rw [fgCount_split] at hzero
      constructor
      · exact fgpidpos_replace haux (fun _ => hp)
      · rw [fgCount_split]
        by_cases hd : d.state = FG
        · rw [if_pos hd] at hzero
          omega
        · rw [if_neg hd] at hzero
          split
          · omega
          · omega
  | do_bg pid hfg hsome =>
      rcases setstate_go_cases pid BG J with hid | ⟨l1, m, l2, hJ, _, hset⟩
      · rw [hid]
        exact ⟨haux, hcount⟩
      · rw [hset]
        subst hJ
        exact fginv_replace_notfg ⟨haux, hcount⟩
          (fun hc => absurd (show BG = FG from hc) (by decide))
  | do_fg pid hfg hsome =>
      rcases setstate_go_cases pid FG J with hid | ⟨l1, m, l2, hJ, hm, hset⟩
      · rw [hid]
        exact ⟨haux, hcount⟩
      · rw [hset]
        subst hJ
        have hzero := fgpid_zero_count haux hfg
        rw [fgCount_split] at hzero
        constructor
        · refine fgpidpos_replace haux (fun _ => ?_)
          have := getjobpid_isSome_pos hsome
          show 1 ≤ m.pid
          omega
        · rw [fgCount_split]
          by_cases hd : m.state = FG
          · rw [if_pos hd] at hzero
            omega
          · rw [if_neg hd] at hzero
            split
            · omega
            · omega
  | chld_stop pid hp =>
      rcases setstate_go_cases pid ST J with hid | ⟨l1, m, l2, hJ, _, hset⟩
      · rw [hid]
        exact ⟨haux, hcount⟩
      · rw [hset]
        subst hJ
        exact fginv_replace_notfg ⟨haux, hcount⟩
          (fun hc => absurd (show ST = FG from hc) (by decide))
  | chld_cont pid =>
      rcases cont_go_cases pid J with hid | ⟨l1, m, l2, hJ, _, hset⟩
      · rw [hid]
        exact ⟨haux, hcount⟩
      · rw [hset]
        subst hJ
        by_cases hst : m.state = ST
        · rw [if_pos hst]
          exact fginv_replace_notfg ⟨haux, hcount⟩
            (fun hc => absurd (show BG = FG from hc) (by decide))
        · rw [if_neg hst]
          exact ⟨haux, hcount⟩
  | chld_term pid hdel =>
      obtain ⟨_, l1, d, l2, hJ, _, _, hJ'⟩ := deletejob_success_struct hdel
      subst hJ
      subst hJ'
      exact fginv_replace_notfg ⟨haux, hcount⟩
        (fun hc => absurd (show UNDEF = FG from hc) (by decide))

theorem shellreach_inv {J : List job_t} (h : ShellReach J) : FgInv J := by
  induction h with
  | init => exact ⟨by unfold FgPidPos; decide, by unfold fgCount; decide⟩
  | step J J' _ hstep ih => exact fginv_step ih hstep

/-- C4: in every job table reachable by the shell's operations — job
registration during launch, bg/fg resolution, and the signal-driven
stop/continue/terminate updates — from the initialized table, the number
of jobs in Foreground state is 0 or 1. -/
theorem at_most_one_foreground (J : List job_t) (h : ShellReach J) :
    fgCount J ≤ 1 :=
  (shellreach_inv h).2

/-- Witness for C4 at a reachable state that does hold a foreground job:
pid 5 launched in the foreground from the initialized table. -/
theorem at_most_one_foreground_witness :
    ShellReach ((addjob initjobs 5 FG "./myspin 3\n").2) ∧
      fgCount ((addjob initjobs 5 FG "./myspin 3\n").2) ≤ 1 :=
  have hr : ShellReach ((addjob initjobs 5 FG "./myspin 3\n").2) :=
    ShellReach.step initjobs ((addjob initjobs 5 FG "./myspin 3\n").2) ShellReach.init
      (ShellStep.launch_fg 5 "./myspin 3\n" (by decide) (by decide))
  ⟨hr, at_most_one_foreground ((addjob initjobs 5 FG "./myspin 3\n").2) hr⟩

end Tsh
